import Mathlib

/-!
Shallow embedding of the execd input adapter
(plugins/inputs/execd/execd.go): it launches an external command,
demultiplexes the command's stdout into metrics through a pluggable
parser (a batch newline-splitting loop or a streaming decode loop) and
routes the command's stderr into a leveled log sink.  Stream bytes are
modelled as characters, metrics and parser errors are opaque type
parameters, and each read loop is modelled as a function from its input
stream (plus the results of the external collaborators) to the list of
sink and log-sink calls it performs, in order.
-/

namespace Execd

/-- Embeds one successful bufio ReadBytes call with delimiter
newline on a fully buffered stream: splits off the shortest segment
ending in a newline, keeping the trailing delimiter, or returns none
when the input holds no newline. -/
def splitFirstNL : List Char → Option (List Char × List Char)
  | [] => none
  | c :: rest =>
    if c = '\n' then some ([c], rest)
    else
      match splitFirstNL rest with
      | some (r, rem) => some (c :: r, rem)
      | none => none

/-- Soundness of splitFirstNL, stated as a definition because the
well-founded recursions below consume it in their termination
arguments: a returned record is a nonempty piece of the input. -/
def splitFirstNL_sound : ∀ (l r rem : List Char),
    splitFirstNL l = some (r, rem) → r ++ rem = l ∧ r ≠ [] := by
  intro l
  induction l with
  | nil => intro r rem h; simp [splitFirstNL] at h
  | cons c t ih =>
    intro r rem h
    by_cases hc : c = '\n'
    · subst hc
      simp [splitFirstNL] at h
      obtain ⟨hr, hm⟩ := h
      subst hr; subst hm
      exact ⟨rfl, by simp⟩
    · simp only [splitFirstNL] at h
      rw [if_neg hc] at h
      cases ht : splitFirstNL t with
      | none => rw [ht] at h; simp at h
      | some pr =>
        obtain ⟨r0, rem0⟩ := pr
        rw [ht] at h
        simp at h
        obtain ⟨hr, hm⟩ := h
        subst hr; subst hm
        have h2 := ih r0 rem0 ht
        exact ⟨by simp [h2.1], by simp⟩

/-- Records of a fully buffered stream: the successive complete
newline-terminated records, a trailing piece with no newline being
dropped exactly as the batch loop drops it at EOF. -/
def extractRecords (l : List Char) : List (List Char) :=
  match h : splitFirstNL l with
  | none => []
  | some (r, rem) => r :: extractRecords rem
termination_by l.length
decreasing_by
  have key := splitFirstNL_sound l r rem h
  have hlen : r.length + rem.length = l.length := by
    rw [← key.1]; simp
  have hr : 0 < r.length := List.length_pos.mpr key.2
  omega

/-- Read errors the batch loop can see from the underlying reader,
identified the way the source identifies them with errors.Is:
io.EOF, os.ErrClosed, or any other error. -/
inductive RErr
  | eof
  | closed
  | other (code : Nat)
deriving DecidableEq

/-- One event on the raw stdout stream: either a successful read
delivering some bytes or a read error surfaced by the reader. -/
inductive Chunk
  | data (bytes : List Char)
  | rerr (k : RErr)
deriving DecidableEq

/-- Result of one ReadBytes call over the chunked stream. -/
inductive ReadRes
  | record (r : List Char) (rest : List Chunk)
  | fail (k : RErr) (rest : List Chunk)
  | eofEnd
deriving DecidableEq

/-- Embeds bufio ReadBytes with delimiter newline over a chunked
stream: bytes are accumulated across reads until a newline arrives;
a read error surfaces after the data read before it, with the partial
accumulation handed back alongside the error (the source discards it);
exhaustion of the stream is io.EOF. -/
def readRecordE (acc : List Char) : List Chunk → ReadRes
  | [] => ReadRes.eofEnd
  | Chunk.data d :: rest =>
    match splitFirstNL (acc ++ d) with
    | some (r, rem) => ReadRes.record r (Chunk.data rem :: rest)
    | none => readRecordE (acc ++ d) rest
  | Chunk.rerr k :: rest => ReadRes.fail k rest

/-- Data bytes remaining in a chunked stream. -/
def chunkChars : List Chunk → Nat
  | [] => 0
  | Chunk.data d :: rest => d.length + chunkChars rest
  | Chunk.rerr _ :: rest => chunkChars rest

/-- Termination measure for the batch loop over a chunked stream. -/
def chunkMeasure (cs : List Chunk) : Nat :=
  cs.length + chunkChars cs

/-- Termination support: a successfully read record is nonempty and is
paid for by the stream measure. -/
def readRecordE_rec_le : ∀ (cs : List Chunk) (acc r : List Char) (rest : List Chunk),
    readRecordE acc cs = ReadRes.record r rest →
    0 < r.length ∧ r.length + chunkMeasure rest ≤ acc.length + chunkMeasure cs := by
  intro cs
  induction cs with
  | nil => intro acc r rest h; simp [readRecordE] at h
  | cons c cs ih =>
    intro acc r rest h
    cases c with
    | rerr k => simp [readRecordE] at h
    | data d =>
      simp only [readRecordE] at h
      cases hs : splitFirstNL (acc ++ d) with
      | none =>
        rw [hs] at h
        have key := ih (acc ++ d) r rest h
        simp only [chunkMeasure, chunkChars, List.length_append, List.length_cons] at key ⊢
        omega
      | some pr =>
        obtain ⟨r0, rem0⟩ := pr
        rw [hs] at h
        simp at h
        obtain ⟨hr, hrest⟩ := h
        subst hr; subst hrest
        have hsp := splitFirstNL_sound (acc ++ d) r0 rem0 hs
        have hlen : r0.length + rem0.length = acc.length + d.length := by
          have := congrArg List.length hsp.1
          simpa using this
        have hr0 : 0 < r0.length := List.length_pos.mpr hsp.2
        simp only [chunkMeasure, chunkChars, List.length_cons]
        omega

/-- Termination support: a read error strictly shrinks the stream
measure. -/
def readRecordE_fail_lt : ∀ (cs : List Chunk) (acc : List Char) (k : RErr) (rest : List Chunk),
    readRecordE acc cs = ReadRes.fail k rest →
    chunkMeasure rest < chunkMeasure cs := by
  intro cs
  induction cs with
  | nil => intro acc k rest h; simp [readRecordE] at h
  | cons c cs ih =>
    intro acc k rest h
    cases c with
    | rerr k0 =>
      simp [readRecordE] at h
      obtain ⟨hk, hrest⟩ := h
      subst hrest
      simp only [chunkMeasure, chunkChars, List.length_cons]
      omega
    | data d =>
      simp only [readRecordE] at h
      cases hs : splitFirstNL (acc ++ d) with
      | none =>
        rw [hs] at h
        have key := ih (acc ++ d) k rest h
        simp only [chunkMeasure, chunkChars, List.length_cons] at key ⊢
        omega
      | some pr =>
        obtain ⟨r0, rem0⟩ := pr
        rw [hs] at h
        simp at h

/-- Sink and log-sink calls made by the batch loop, in order:
the record handed to the parser, an error accumulated with AddError
(read error or parse error), the once-guarded zero-metrics debug
notice, and a metric forwarded with AddMetric. -/
inductive BatchEv (M PE : Type)
  | parseCall (r : List Char)
  | readErrEv (k : RErr)
  | parseErrEv (e : PE)
  | zeroNotice
  | metricEv (m : M)

/-- Embeds the body of one successful iteration of cmdReadOut
(lines 111-124): parse the record; on a parse error accumulate it; when
zero metrics were produced fire the once-guarded debug notice; then
forward each metric in order.  The boolean threads the process-wide
once flag. -/
def processRecord {M PE : Type} (parse : List Char → List M × Option PE)
    (st : Bool) (r : List Char) : Bool × List (BatchEv M PE) :=
  let res := parse r
  let errEvs : List (BatchEv M PE) :=
    match res.2 with
    | some e => [BatchEv.parseErrEv e]
    | none => []
  let stepNotice : Bool × List (BatchEv M PE) :=
    if res.1.isEmpty then
      if st then (st, []) else (true, [BatchEv.zeroNotice])
    else (st, [])
  (stepNotice.1, BatchEv.parseCall r :: errEvs ++ stepNotice.2 ++ res.1.map BatchEv.metricEv)

/-- Embeds cmdReadOut, the batch line demultiplexer: loop reading a
newline-terminated record; on io.EOF or os.ErrClosed break; on any
other read error accumulate it and continue; on a record run the
iteration body.  The input is the chunked stdout stream, the boolean
threads the process-wide once flag, the output is the ordered list of
sink and log-sink calls. -/
def cmdReadOut {M PE : Type} (parse : List Char → List M × Option PE)
    (st : Bool) (cs : List Chunk) : List (BatchEv M PE) :=
  match h : readRecordE [] cs with
  | ReadRes.eofEnd => []
  | ReadRes.fail k rest =>
    if k = RErr.eof ∨ k = RErr.closed then []
    else BatchEv.readErrEv k :: cmdReadOut parse st rest
  | ReadRes.record r rest =>
    let p := processRecord parse st r
    p.2 ++ cmdReadOut parse p.1 rest
termination_by chunkMeasure cs
decreasing_by
  · exact readRecordE_fail_lt cs [] k rest h
  · have key := readRecordE_rec_le cs [] r rest h
    obtain ⟨k1, k2⟩ := key
    simp at k2
    omega

/-- Reference semantics of the batch loop on the unsplit stdout bytes,
written to the spec sentence that the demultiplexer emits exactly what
the parser produces from the unsplit input: the same iteration body
run over the records of the flat stream. -/
def cmdReadOutFlat {M PE : Type} (parse : List Char → List M × Option PE)
    (st : Bool) (l : List Char) : List (BatchEv M PE) :=
  match h : splitFirstNL l with
  | none => []
  | some (r, rem) =>
    let p := processRecord parse st r
    p.2 ++ cmdReadOutFlat parse p.1 rem
termination_by l.length
decreasing_by
  have key := splitFirstNL_sound l r rem h
  have hlen : r.length + rem.length = l.length := by
    rw [← key.1]; simp
  have hr : 0 < r.length := List.length_pos.mpr key.2
  omega

/-- A chunked stream carrying only data, no read errors. -/
def dataChunks (cs : List (List Char)) : List Chunk :=
  cs.map Chunk.data

/-- The record a parseCall event carries, when the event is one. -/
def evRecord? {M PE : Type} : BatchEv M PE → Option (List Char)
  | BatchEv.parseCall r => some r
  | _ => none

/-- The metric an AddMetric event carries, when the event is one. -/
def evMetric? {M PE : Type} : BatchEv M PE → Option M
  | BatchEv.metricEv m => some m
  | _ => none

/-- Whether an event is the zero-metrics debug notice. -/
def evNoticeB {M PE : Type} : BatchEv M PE → Bool
  | BatchEv.zeroNotice => true
  | _ => false

/-- Records handed to the parser, in order. -/
def parseCallsOf {M PE : Type} (evs : List (BatchEv M PE)) : List (List Char) :=
  evs.filterMap evRecord?

/-- Metrics forwarded to the sink with AddMetric, in order. -/
def metricsOf {M PE : Type} (evs : List (BatchEv M PE)) : List M :=
  evs.filterMap evMetric?

/-- Number of zero-metrics debug notices among the events. -/
def noticeCount {M PE : Type} (evs : List (BatchEv M PE)) : Nat :=
  evs.countP evNoticeB

/-- Interleaved execution of batch iteration bodies across all execd
instances of the hosting process (each step carries the parser of the
instance that runs it), threading the single process-wide once flag
through every step in scheduling order. -/
def runShared {M PE : Type}
    (steps : List ((List Char → List M × Option PE) × List Char))
    (st : Bool) : Bool × List (BatchEv M PE) :=
  match steps with
  | [] => (st, [])
  | (p, r) :: rest =>
    let pr := processRecord p st r
    let res := runShared rest pr.1
    (res.1, pr.2 ++ res.2)

/-- Result of one Next call of the influx stream parser, as the source
distinguishes them: a metric, the influx.EOF sentinel, a typed
influx.ParseError, or any other error. -/
inductive StreamRes (M PE FE : Type)
  | next (m : M)
  | eofRes
  | perr (e : PE)
  | ferr (e : FE)

/-- Sink calls made by the streaming loop. -/
inductive StreamEv (M PE FE : Type)
  | metricEv (m : M)
  | parseErrEv (e : PE)
  | fatalErrEv (e : FE)

/-- Embeds cmdReadOutStream, the streaming demultiplexer, over the
trace of results the influx stream parser returns from Next: on the
EOF sentinel break; on a typed parse error accumulate it and continue;
on any other error accumulate it and return; on a metric forward it. -/
def cmdReadOutStream {M PE FE : Type} :
    List (StreamRes M PE FE) → List (StreamEv M PE FE)
  | [] => []
  | StreamRes.eofRes :: _ => []
  | StreamRes.perr e :: rest => StreamEv.parseErrEv e :: cmdReadOutStream rest
  | StreamRes.ferr e :: _ => [StreamEv.fatalErrEv e]
  | StreamRes.next m :: rest => StreamEv.metricEv m :: cmdReadOutStream rest

/-- The metric a streaming AddMetric event carries, when it is one. -/
def sevMetric? {M PE FE : Type} : StreamEv M PE FE → Option M
  | StreamEv.metricEv m => some m
  | _ => none

/-- Whether a streaming event reported an error to the sink. -/
def sevErrB {M PE FE : Type} : StreamEv M PE FE → Bool
  | StreamEv.metricEv _ => false
  | _ => true

/-- Metrics forwarded by the streaming loop, in order. -/
def streamMetricsOf {M PE FE : Type} (evs : List (StreamEv M PE FE)) : List M :=
  evs.filterMap sevMetric?

/-- Number of errors the streaming loop reported to the sink. -/
def streamErrCount {M PE FE : Type} (evs : List (StreamEv M PE FE)) : Nat :=
  evs.countP sevErrB

/-- Runtime type of the inner parser value, as the source inspects it:
the influx line-protocol parser or anything else. -/
inductive ParserKind
  | influxParser
  | otherKind (tag : Nat)
deriving DecidableEq

/-- Runtime shape of the configured telegraf parser: either wrapped in
models.RunningParser around an inner parser, or an unwrapped value. -/
inductive ParserVal
  | wrapped (inner : ParserKind)
  | unwrapped (inner : ParserKind)
deriving DecidableEq

/-- Which stdout handler the instance will use; unset models the nil
function value before SetParser ran. -/
inductive OutputReaderSel
  | unset
  | batch
  | stream
deriving DecidableEq

/-- Configuration and wiring state of one Execd instance; the process
handle itself is external, only the wiring Start performs on it is
recorded. -/
structure ExecdState where
  Command : List String
  Environment : List String
  BufferSize : Nat
  Signal : String
  RestartDelay : Nat
  StopOnError : Bool
  parserV : Option ParserVal
  outputReader : OutputReaderSel
  wiredStdout : Option OutputReaderSel
deriving DecidableEq

/-- Embeds the factory registered by the package: default signal
"none", restart delay ten seconds, buffer size 65536 bytes. -/
def defaultExecd : ExecdState :=
  { Command := []
  , Environment := []
  , BufferSize := 64 * 1024
  , Signal := "none"
  , RestartDelay := 10 * 1000000000
  , StopOnError := false
  , parserV := none
  , outputReader := OutputReaderSel.unset
  , wiredStdout := none }

/-- Embeds Init: an error exactly when no command was configured. -/
def Init (e : ExecdState) : Option String :=
  if e.Command.isEmpty then some "no command specified" else none

/-- Embeds SetParser: record the parser, default the stdout handler to
the batch loop, and select the streaming loop only when the parser is
a models.RunningParser wrapping an influx.Parser. -/
def SetParser (e : ExecdState) (p : ParserVal) : ExecdState :=
  let e1 := { e with parserV := some p, outputReader := OutputReaderSel.batch }
  match p with
  | ParserVal.wrapped inner =>
    match inner with
    | ParserKind.influxParser => { e1 with outputReader := OutputReaderSel.stream }
    | ParserKind.otherKind _ => e1
  | ParserVal.unwrapped _ => e1

/-- Embeds Start with the outcomes of the external supervisor calls as
parameters: process.New may fail, then the chosen stdout handler is
wired onto the process handle, then process.Start may fail. -/
def Start (e : ExecdState) (newOk startOk : Bool) : Except String ExecdState :=
  if newOk = false then Except.error "error creating new process"
  else
    let e1 := { e with wiredStdout := some e.outputReader }
    if startOk = false then Except.error "failed to start process"
    else Except.ok e1

/-- Embeds Stop: it only signals the external supervisor and changes no
field of the instance. -/
def Stop (e : ExecdState) : ExecdState := e

/-- Modelled from the spec: the hosting agent (its code is not under
src) runs Init first and reaches Start only when Init returned no
error; the second component records whether Start was reached. -/
def runInitStart (e : ExecdState) : Option String × Bool :=
  match Init e with
  | some err => (some err, false)
  | none => (none, true)

/-- The default maximum token size of a bufio Scanner, in bytes. -/
def maxScanTokenSize : Nat := 64 * 1024

/-- Embeds the dropCR helper of bufio ScanLines: remove one trailing
carriage return from the scanned line. -/
def dropCR (l : List Char) : List Char :=
  if l.getLast? = some '\r' then l.dropLast else l

/-- Result of one Scan call of a default bufio Scanner. -/
inductive ScanStep
  | token (line : List Char) (rest : List Char)
  | done
  | tooLong
deriving DecidableEq

/-- The one scanner-level failure this model can produce:
bufio.ErrTooLong from a line exceeding the default buffer. -/
inductive ScanErr
  | tooLong
deriving DecidableEq

/-- Embeds one Scan call of a default bufio Scanner with ScanLines on a
fully buffered stream: a newline found while the token still fits the
default 65536-byte buffer yields the line without its delimiter and
with a trailing carriage return dropped; a full buffer without a
newline is bufio.ErrTooLong; at end of input a leftover shorter than
the buffer is returned as a final line. -/
def scanNext (l : List Char) : ScanStep :=
  match splitFirstNL l with
  | some (r, rem) =>
    if r.length ≤ maxScanTokenSize then ScanStep.token (dropCR r.dropLast) rem
    else ScanStep.tooLong
  | none =>
    if l.isEmpty then ScanStep.done
    else if l.length < maxScanTokenSize then ScanStep.token (dropCR l) []
    else ScanStep.tooLong

/-- Termination support: a scanned line strictly shrinks the stream. -/
def scanNext_token_lt : ∀ (l line rest : List Char),
    scanNext l = ScanStep.token line rest → rest.length < l.length := by
  intro l line rest h
  simp only [scanNext] at h
  split at h
  · rename_i r rem hs
    split at h
    · simp at h
      obtain ⟨h1, h2⟩ := h
      subst h2
      have key := splitFirstNL_sound l r rem hs
      have hlen : r.length + rem.length = l.length := by
        rw [← key.1]; simp
      have hr : 0 < r.length := List.length_pos.mpr key.2
      omega
    · simp at h
  · rename_i hs
    split at h
    · simp at h
    · rename_i hne
      split at h
      · simp at h
        obtain ⟨h1, h2⟩ := h
        subst h2
        simp only [List.length_nil]
        cases l with
        | nil => simp at hne
        | cons a t => simp
      · simp at h

/-- Leveled log-sink calls the stderr router performs. -/
inductive LogEv
  | logError (msg : List Char)
  | logWarn (msg : List Char)
  | logInfo (msg : List Char)
  | logDebug (msg : List Char)
  | logTrace (msg : List Char)
deriving DecidableEq

/-- The five severity tokens the router inspects. -/
def prefE : List Char := ['E', '!', ' ']

/-- Severity token for Warn. -/
def prefW : List Char := ['W', '!', ' ']

/-- Severity token for Info. -/
def prefI : List Char := ['I', '!', ' ']

/-- Severity token for Debug. -/
def prefD : List Char := ['D', '!', ' ']

/-- Severity token for Trace. -/
def prefT : List Char := ['T', '!', ' ']

/-- One hexadecimal digit, lower case, as Go prints it. -/
def hexDigit (n : Nat) : Char :=
  if n < 10 then Char.ofNat (48 + n) else Char.ofNat (87 + n)

/-- Embeds the escaping of one character under the Go %q verb for
characters in the ASCII range (the inputs this router sees): quote and
backslash are backslash-escaped, printable ASCII stays itself, the
named control escapes follow, and remaining characters print as
hexadecimal escapes. -/
def goEscapeChar (c : Char) : List Char :=
  if c = '"' ∨ c = '\\' then ['\\', c]
  else if 32 ≤ c.toNat ∧ c.toNat < 127 then [c]
  else if c = '\x07' then ['\\', 'a']
  else if c = '\x08' then ['\\', 'b']
  else if c = '\x0c' then ['\\', 'f']
  else if c = '\n' then ['\\', 'n']
  else if c = '\r' then ['\\', 'r']
  else if c = '\t' then ['\\', 't']
  else if c = '\x0b' then ['\\', 'v']
  else if c.toNat < 256 then
    ['\\', 'x', hexDigit (c.toNat / 16), hexDigit (c.toNat % 16)]
  else
    ['\\', 'u', hexDigit (c.toNat / 4096 % 16), hexDigit (c.toNat / 256 % 16),
      hexDigit (c.toNat / 16 % 16), hexDigit (c.toNat % 16)]

/-- Embeds the Go %q verb on a line: the escaped characters wrapped in
double quotes. -/
def goQuote (s : List Char) : List Char :=
  '"' :: s.flatMap goEscapeChar ++ ['"']

/-- Embeds the switch of cmdReadErr on one scanned line: a line
carrying one of the five severity tokens goes to the matching level
with the three-character token stripped; every other line goes to
Error as the word stderr, a colon and the %q-quoted line. -/
def routeLine (msg : List Char) : LogEv :=
  if prefE.isPrefixOf msg then LogEv.logError (msg.drop 3)
  else if prefW.isPrefixOf msg then LogEv.logWarn (msg.drop 3)
  else if prefI.isPrefixOf msg then LogEv.logInfo (msg.drop 3)
  else if prefD.isPrefixOf msg then LogEv.logDebug (msg.drop 3)
  else if prefT.isPrefixOf msg then LogEv.logTrace (msg.drop 3)
  else LogEv.logError ("stderr: ".toList ++ goQuote msg)

/-- Embeds cmdReadErr, the stderr router: scan the stream line by line
with a default bufio Scanner, route each line, and after the scan loop
report a scanner failure, when there is one, to the sink. -/
def cmdReadErr (l : List Char) : List LogEv × Option ScanErr :=
  match h : scanNext l with
  | ScanStep.done => ([], none)
  | ScanStep.tooLong => ([], some ScanErr.tooLong)
  | ScanStep.token line rest =>
    let p := cmdReadErr rest
    (routeLine line :: p.1, p.2)
termination_by l.length
decreasing_by
  exact scanNext_token_lt l line rest h

theorem splitFirstNL_nil : splitFirstNL [] = none := rfl

theorem splitFirstNL_none_of_not_mem : ∀ {l : List Char},
    ('\n' : Char) ∉ l → splitFirstNL l = none := by
  intro l
  induction l with
  | nil => intro _; rfl
  | cons c t ih =>
    intro h
    have hc : ¬ c = '\n' := fun e => h (by simp [e])
    have ht : ('\n' : Char) ∉ t := fun e => h (List.mem_cons_of_mem _ e)
    simp only [splitFirstNL, if_neg hc, ih ht]

theorem not_mem_of_splitFirstNL_none : ∀ {l : List Char},
    splitFirstNL l = none → ('\n' : Char) ∉ l := by
  intro l
  induction l with
  | nil => intro _ hm; simp at hm
  | cons c t ih =>
    intro h hm
    by_cases hc : c = '\n'
    · subst hc; simp [splitFirstNL] at h
    · simp only [splitFirstNL, if_neg hc] at h
      cases ht : splitFirstNL t with
      | none =>
        rcases List.mem_cons.mp hm with h1 | h1
        · exact hc h1.symm
        · exact ih ht h1
      | some pr =>
        obtain ⟨r0, rem0⟩ := pr
        rw [ht] at h
        simp at h

theorem splitFirstNL_append_left : ∀ {a : List Char} (b : List Char) {r rem : List Char},
    splitFirstNL a = some (r, rem) → splitFirstNL (a ++ b) = some (r, rem ++ b) := by
  intro a
  induction a with
  | nil => intro b r rem h; simp [splitFirstNL] at h
  | cons c t ih =>
    intro b r rem h
    by_cases hc : c = '\n'
    · subst hc
      simp [splitFirstNL] at h
      obtain ⟨h1, h2⟩ := h
      subst h1; subst h2
      simp [splitFirstNL]
    · simp only [splitFirstNL, if_neg hc] at h
      cases ht : splitFirstNL t with
      | none => rw [ht] at h; simp at h
      | some pr =>
        obtain ⟨r0, rem0⟩ := pr
        rw [ht] at h
        simp at h
        obtain ⟨h1, h2⟩ := h
        subst h1; subst h2
        have key := ih b ht
        simp only [List.cons_append, splitFirstNL, if_neg hc, List.append_eq, key]

theorem splitFirstNL_record : ∀ {a : List Char} (rest : List Char), ('\n' : Char) ∉ a →
    splitFirstNL (a ++ '\n' :: rest) = some (a ++ ['\n'], rest) := by
  intro a
  induction a with
  | nil => intro rest _; simp [splitFirstNL]
  | cons c t ih =>
    intro rest h
    have hc : ¬ c = '\n' := fun e => h (by simp [e])
    have ht : ('\n' : Char) ∉ t := fun e => h (List.mem_cons_of_mem _ e)
    simp only [List.cons_append, splitFirstNL, if_neg hc, List.append_eq, ih rest ht]

theorem splitFirstNL_last : ∀ {l r rem : List Char},
    splitFirstNL l = some (r, rem) → r.getLast? = some '\n' := by
  intro l
  induction l with
  | nil => intro r rem h; simp [splitFirstNL] at h
  | cons c t ih =>
    intro r rem h
    by_cases hc : c = '\n'
    · subst hc
      simp [splitFirstNL] at h
      obtain ⟨h1, h2⟩ := h
      subst h1
      simp
    · simp only [splitFirstNL, if_neg hc] at h
      cases ht : splitFirstNL t with
      | none => rw [ht] at h; simp at h
      | some pr =>
        obtain ⟨r0, rem0⟩ := pr
        rw [ht] at h
        simp at h
        obtain ⟨h1, h2⟩ := h
        subst h1
        have hr0 : r0 ≠ [] := (splitFirstNL_sound t r0 rem0 ht).2
        cases r0 with
        | nil => exact absurd rfl hr0
        | cons x xs =>
          rw [List.getLast?_cons_cons]
          exact ih ht

theorem extractRecords_none {l : List Char} (h : splitFirstNL l = none) :
    extractRecords l = [] := by
  rw [extractRecords.eq_def]
  split <;> simp_all

theorem extractRecords_some {l r rem : List Char} (h : splitFirstNL l = some (r, rem)) :
    extractRecords l = r :: extractRecords rem := by
  rw [extractRecords.eq_def]
  split
  · simp_all
  · rename_i r' rem' h'
    rw [h] at h'
    simp_all

theorem cmdReadOut_eofEnd {M PE : Type} (parse : List Char → List M × Option PE) (st : Bool)
    {cs : List Chunk} (h : readRecordE [] cs = ReadRes.eofEnd) :
    cmdReadOut parse st cs = [] := by
  rw [cmdReadOut.eq_def]
  split <;> simp_all

theorem cmdReadOut_fail {M PE : Type} (parse : List Char → List M × Option PE) (st : Bool)
    {cs : List Chunk} {k : RErr} {rest : List Chunk}
    (h : readRecordE [] cs = ReadRes.fail k rest) :
    cmdReadOut parse st cs =
      if k = RErr.eof ∨ k = RErr.closed then []
      else BatchEv.readErrEv k :: cmdReadOut parse st rest := by
  rw [cmdReadOut.eq_def]
  split <;> simp_all

theorem cmdReadOut_record {M PE : Type} (parse : List Char → List M × Option PE) (st : Bool)
    {cs : List Chunk} {r : List Char} {rest : List Chunk}
    (h : readRecordE [] cs = ReadRes.record r rest) :
    cmdReadOut parse st cs =
      (processRecord parse st r).2 ++ cmdReadOut parse (processRecord parse st r).1 rest := by
  rw [cmdReadOut.eq_def]
  split <;> simp_all

theorem cmdReadOutFlat_none {M PE : Type} (parse : List Char → List M × Option PE) (st : Bool)
    {l : List Char} (h : splitFirstNL l = none) :
    cmdReadOutFlat parse st l = [] := by
  rw [cmdReadOutFlat.eq_def]
  split <;> simp_all

theorem cmdReadOutFlat_some {M PE : Type} (parse : List Char → List M × Option PE) (st : Bool)
    {l r rem : List Char} (h : splitFirstNL l = some (r, rem)) :
    cmdReadOutFlat parse st l =
      (processRecord parse st r).2 ++ cmdReadOutFlat parse (processRecord parse st r).1 rem := by
  rw [cmdReadOutFlat.eq_def]
  split
  · simp_all
  · rename_i r' rem' h'
    rw [h] at h'
    simp_all

theorem cmdReadErr_done {l : List Char} (h : scanNext l = ScanStep.done) :
    cmdReadErr l = ([], none) := by
  rw [cmdReadErr.eq_def]
  split <;> simp_all

theorem cmdReadErr_tooLong {l : List Char} (h : scanNext l = ScanStep.tooLong) :
    cmdReadErr l = ([], some ScanErr.tooLong) := by
  rw [cmdReadErr.eq_def]
  split <;> simp_all

theorem cmdReadErr_token {l line rest : List Char} (h : scanNext l = ScanStep.token line rest) :
    cmdReadErr l = (routeLine line :: (cmdReadErr rest).1, (cmdReadErr rest).2) := by
  rw [cmdReadErr.eq_def]
  split <;> simp_all

theorem filterMap_evRecord_map {M PE : Type} (l : List M) :
    List.filterMap (evRecord? ∘ (@BatchEv.metricEv M PE)) l = [] := by
  induction l with
  | nil => rfl
  | cons a t ih => simp [List.filterMap_cons, evRecord?, Function.comp, ih]

theorem filterMap_evMetric_map {M PE : Type} (l : List M) :
    List.filterMap (evMetric? ∘ (@BatchEv.metricEv M PE)) l = l := by
  induction l with
  | nil => rfl
  | cons a t ih => simp [List.filterMap_cons, evMetric?, Function.comp, ih]

theorem countP_evNotice_map {M PE : Type} (l : List M) :
    List.countP (evNoticeB ∘ (@BatchEv.metricEv M PE)) l = 0 := by
  induction l with
  | nil => rfl
  | cons a t ih => simp [List.countP_cons, evNoticeB, Function.comp, ih]

theorem parseCallsOf_append {M PE : Type} (a b : List (BatchEv M PE)) :
    parseCallsOf (a ++ b) = parseCallsOf a ++ parseCallsOf b := by
  simp [parseCallsOf, List.filterMap_append]

theorem metricsOf_append {M PE : Type} (a b : List (BatchEv M PE)) :
    metricsOf (a ++ b) = metricsOf a ++ metricsOf b := by
  simp [metricsOf, List.filterMap_append]

theorem noticeCount_append {M PE : Type} (a b : List (BatchEv M PE)) :
    noticeCount (a ++ b) = noticeCount a + noticeCount b := by
  simp [noticeCount, List.countP_append]

theorem processRecord_fst {M PE : Type} (parse : List Char → List M × Option PE)
    (st : Bool) (r : List Char) :
    (processRecord parse st r).1 = (st || (parse r).1.isEmpty) := by
  cases hE : (parse r).1.isEmpty <;> cases st <;> simp [processRecord, hE]

theorem processRecord_parseCalls {M PE : Type} (parse : List Char → List M × Option PE)
    (st : Bool) (r : List Char) :
    parseCallsOf (processRecord parse st r).2 = [r] := by
  cases h2 : (parse r).2 <;> cases hE : (parse r).1.isEmpty <;> cases st <;>
    simp [processRecord, parseCallsOf, h2, hE, evRecord?, List.filterMap_cons,
      List.filterMap_append, filterMap_evRecord_map]

theorem processRecord_metrics {M PE : Type} (parse : List Char → List M × Option PE)
    (st : Bool) (r : List Char) :
    metricsOf (processRecord parse st r).2 = (parse r).1 := by
  cases h2 : (parse r).2 <;> cases hE : (parse r).1.isEmpty <;> cases st <;>
    simp [processRecord, metricsOf, h2, hE, evMetric?, List.filterMap_cons,
      List.filterMap_append, filterMap_evMetric_map]

theorem processRecord_noticeCount {M PE : Type} (parse : List Char → List M × Option PE)
    (st : Bool) (r : List Char) :
    noticeCount (processRecord parse st r).2 =
      if st then 0 else (if (parse r).1.isEmpty then 1 else 0) := by
  cases h2 : (parse r).2 <;> cases hE : (parse r).1.isEmpty <;> cases st <;>
    simp [processRecord, noticeCount, h2, hE, evNoticeB, List.countP_cons,
      List.countP_append, countP_evNotice_map]

theorem runShared_true {M PE : Type}
    (steps : List ((List Char → List M × Option PE) × List Char)) :
    (runShared steps true).1 = true ∧ noticeCount (runShared steps true).2 = 0 := by
  induction steps with
  | nil => simp [runShared, noticeCount]
  | cons sp rest ih =>
    obtain ⟨p, r⟩ := sp
    constructor
    · simp only [runShared]
      rw [processRecord_fst]
      simpa using ih.1
    · simp only [runShared]
      rw [noticeCount_append, processRecord_fst, processRecord_noticeCount]
      simpa using ih.2

theorem runShared_false_le_one {M PE : Type}
    (steps : List ((List Char → List M × Option PE) × List Char)) :
    noticeCount (runShared steps false).2 ≤ 1 := by
  induction steps with
  | nil => simp [runShared, noticeCount]
  | cons sp rest ih =>
    obtain ⟨p, r⟩ := sp
    simp only [runShared]
    rw [noticeCount_append, processRecord_fst, processRecord_noticeCount]
    by_cases hE : (p r).1.isEmpty
    · have := (runShared_true rest).2
      simp [hE, this]
    · simp only [Bool.false_or]
      rw [if_neg (by simpa using hE)]
      simpa [hE] using ih

theorem readRecordE_data : ∀ (cs : List (List Char)) (acc : List Char), ('\n' : Char) ∉ acc →
    (splitFirstNL (acc ++ cs.flatten) = none →
      readRecordE acc (dataChunks cs) = ReadRes.eofEnd) ∧
    (∀ r rem, splitFirstNL (acc ++ cs.flatten) = some (r, rem) →
      ∃ ds : List (List Char), readRecordE acc (dataChunks cs) = ReadRes.record r (dataChunks ds) ∧
        ds.flatten = rem) := by
  intro cs
  induction cs with
  | nil =>
    intro acc hacc
    refine ⟨fun _ => by simp [dataChunks, readRecordE], ?_⟩
    intro r rem h
    rw [List.flatten_nil, List.append_nil] at h
    rw [splitFirstNL_none_of_not_mem hacc] at h
    simp at h
  | cons c cs ih =>
    intro acc hacc
    constructor
    · intro hnone
      rw [List.flatten_cons, ← List.append_assoc] at hnone
      have hs : splitFirstNL (acc ++ c) = none := by
        apply splitFirstNL_none_of_not_mem
        intro hm
        exact not_mem_of_splitFirstNL_none hnone (List.mem_append_left _ hm)
      have hacc2 : ('\n' : Char) ∉ acc ++ c := not_mem_of_splitFirstNL_none hs
      have key := (ih (acc ++ c) hacc2).1 hnone
      simp only [dataChunks, List.map_cons, readRecordE, hs]
      simpa [dataChunks] using key
    · intro r rem h
      rw [List.flatten_cons, ← List.append_assoc] at h
      cases hs : splitFirstNL (acc ++ c) with
      | some pr =>
        obtain ⟨r0, rem0⟩ := pr
        have hleft := splitFirstNL_append_left cs.flatten hs
        rw [hleft] at h
        simp at h
        obtain ⟨h1, h2⟩ := h
        refine ⟨rem0 :: cs, ?_, ?_⟩
        · simp only [dataChunks, List.map_cons, readRecordE, hs, h1]
        · simp [h2]
      | none =>
        have hacc2 : ('\n' : Char) ∉ acc ++ c := not_mem_of_splitFirstNL_none hs
        obtain ⟨ds, hd1, hd2⟩ := (ih (acc ++ c) hacc2).2 r rem h
        refine ⟨ds, ?_, hd2⟩
        simp only [dataChunks, List.map_cons, readRecordE, hs]
        simpa [dataChunks] using hd1

theorem cmdReadOut_data_eq_flatAux {M PE : Type} (parse : List Char → List M × Option PE) :
    ∀ (n : Nat) (cs : List (List Char)) (st : Bool), cs.flatten.length ≤ n →
    cmdReadOut parse st (dataChunks cs) = cmdReadOutFlat parse st cs.flatten := by
  intro n
  induction n with
  | zero =>
    intro cs st h
    have hflat : cs.flatten = [] := List.length_eq_zero.mp (Nat.le_zero.mp h)
    have h1 := (readRecordE_data cs [] (by simp)).1
    rw [List.nil_append] at h1
    rw [cmdReadOut_eofEnd parse st (h1 (by rw [hflat]; rfl)),
      cmdReadOutFlat_none parse st (by rw [hflat]; rfl)]
  | succ n ih =>
    intro cs st h
    cases hs : splitFirstNL cs.flatten with
    | none =>
      have h1 := (readRecordE_data cs [] (by simp)).1
      rw [List.nil_append] at h1
      rw [cmdReadOut_eofEnd parse st (h1 hs), cmdReadOutFlat_none parse st hs]
    | some pr =>
      obtain ⟨r, rem⟩ := pr
      have h2 := (readRecordE_data cs [] (by simp)).2 r rem (by rw [List.nil_append]; exact hs)
      obtain ⟨ds, hrec, hds⟩ := h2
      rw [cmdReadOut_record parse st hrec, cmdReadOutFlat_some parse st hs]
      have key := splitFirstNL_sound _ _ _ hs
      have hrpos : 0 < r.length := List.length_pos.mpr key.2
      have hlen : rem.length ≤ n := by
        have hl := congrArg List.length key.1
        rw [List.length_append] at hl
        omega
      congr 1
      rw [← hds]
      exact ih ds _ (by rw [hds]; exact hlen)

theorem cmdReadOutFlat_parseCalls {M PE : Type} (parse : List Char → List M × Option PE) :
    ∀ (n : Nat) (l : List Char) (st : Bool), l.length ≤ n →
    parseCallsOf (cmdReadOutFlat parse st l) = extractRecords l := by
  intro n
  induction n with
  | zero =>
    intro l st h
    have hl : l = [] := List.length_eq_zero.mp (Nat.le_zero.mp h)
    subst hl
    rw [cmdReadOutFlat_none parse st splitFirstNL_nil, @extractRecords_none [] splitFirstNL_nil]
    rfl
  | succ n ih =>
    intro l st h
    cases hs : splitFirstNL l with
    | none =>
      rw [cmdReadOutFlat_none parse st hs, extractRecords_none hs]
      rfl
    | some pr =>
      obtain ⟨r, rem⟩ := pr
      rw [cmdReadOutFlat_some parse st hs, extractRecords_some hs, parseCallsOf_append,
        processRecord_parseCalls]
      have key := splitFirstNL_sound _ _ _ hs
      have hrpos : 0 < r.length := List.length_pos.mpr key.2
      have hlen : rem.length ≤ n := by
        have hl := congrArg List.length key.1
        rw [List.length_append] at hl
        omega
      rw [ih rem _ hlen]
      rfl

theorem cmdReadOutFlat_metrics {M PE : Type} (parse : List Char → List M × Option PE) :
    ∀ (n : Nat) (l : List Char) (st : Bool), l.length ≤ n →
    metricsOf (cmdReadOutFlat parse st l) =
      (extractRecords l).flatMap (fun r => (parse r).1) := by
  intro n
  induction n with
  | zero =>
    intro l st h
    have hl : l = [] := List.length_eq_zero.mp (Nat.le_zero.mp h)
    subst hl
    rw [cmdReadOutFlat_none parse st splitFirstNL_nil, @extractRecords_none [] splitFirstNL_nil]
    rfl
  | succ n ih =>
    intro l st h
    cases hs : splitFirstNL l with
    | none =>
      rw [cmdReadOutFlat_none parse st hs, extractRecords_none hs]
      rfl
    | some pr =>
      obtain ⟨r, rem⟩ := pr
      rw [cmdReadOutFlat_some parse st hs, extractRecords_some hs, metricsOf_append,
        processRecord_metrics, List.flatMap_cons]
      have key := splitFirstNL_sound _ _ _ hs
      have hrpos : 0 < r.length := List.length_pos.mpr key.2
      have hlen : rem.length ≤ n := by
        have hl := congrArg List.length key.1
        rw [List.length_append] at hl
        omega
      rw [ih rem _ hlen]

theorem extractRecords_last : ∀ (n : Nat) (l r : List Char), l.length ≤ n →
    r ∈ extractRecords l → r.getLast? = some '\n' := by
  intro n
  induction n with
  | zero =>
    intro l r h hm
    have hl : l = [] := List.length_eq_zero.mp (Nat.le_zero.mp h)
    subst hl
    rw [@extractRecords_none [] splitFirstNL_nil] at hm
    simp at hm
  | succ n ih =>
    intro l r h hm
    cases hs : splitFirstNL l with
    | none =>
      rw [extractRecords_none hs] at hm
      simp at hm
    | some pr =>
      obtain ⟨r0, rem⟩ := pr
      rw [extractRecords_some hs] at hm
      have key := splitFirstNL_sound _ _ _ hs
      have hrpos : 0 < r0.length := List.length_pos.mpr key.2
      have hlen : rem.length ≤ n := by
        have hl := congrArg List.length key.1
        rw [List.length_append] at hl
        omega
      rcases List.mem_cons.mp hm with h1 | h1
      · subst h1
        exact splitFirstNL_last hs
      · exact ih rem r hlen h1

theorem scanNext_none {l : List Char} (h : splitFirstNL l = none) :
    scanNext l =
      if l.isEmpty then ScanStep.done
      else if l.length < maxScanTokenSize then ScanStep.token (dropCR l) []
      else ScanStep.tooLong := by
  unfold scanNext
  rw [h]

theorem isPrefixOf_exists : ∀ (p l : List Char), p.isPrefixOf l = true → ∃ t, l = p ++ t := by
  intro p
  induction p with
  | nil => intro l _; exact ⟨l, rfl⟩
  | cons a as ih =>
    intro l h
    cases l with
    | nil => simp [List.isPrefixOf] at h
    | cons b bs =>
      simp only [List.isPrefixOf, Bool.and_eq_true, beq_iff_eq] at h
      obtain ⟨h1, h2⟩ := h
      obtain ⟨t, ht⟩ := ih bs h2
      exact ⟨t, by simp [h1, ht]⟩

theorem isPrefixOf_append_self : ∀ (p t : List Char), p.isPrefixOf (p ++ t) = true := by
  intro p t
  induction p with
  | nil => simp [List.isPrefixOf]
  | cons a as ih => simp [List.isPrefixOf, ih]

/-- Claim C1: however the reads split the stdout byte sequence across
buffer boundaries, the batch demultiplexer behaves exactly as on the
unsplit input: it hands precisely the complete newline-terminated
records (each keeping its trailing delimiter) to the parser, in order,
and forwards exactly the metrics the parser produces from those
records, each metric individually and in parser order. -/
theorem batch_demux_chunking {M PE : Type} (parse : List Char → List M × Option PE)
    (st : Bool) (cs : List (List Char)) :
    cmdReadOut parse st (dataChunks cs) = cmdReadOutFlat parse st cs.flatten ∧
    parseCallsOf (cmdReadOut parse st (dataChunks cs)) = extractRecords cs.flatten ∧
    metricsOf (cmdReadOut parse st (dataChunks cs)) =
      (extractRecords cs.flatten).flatMap (fun r => (parse r).1) ∧
    ∀ r ∈ extractRecords cs.flatten, r.getLast? = some '\n' := by
  have h1 := cmdReadOut_data_eq_flatAux parse cs.flatten.length cs st (le_refl _)
  refine ⟨h1, ?_, ?_, ?_⟩
  · rw [h1]
    exact cmdReadOutFlat_parseCalls parse cs.flatten.length _ st (le_refl _)
  · rw [h1]
    exact cmdReadOutFlat_metrics parse cs.flatten.length _ st (le_refl _)
  · intro r hm
    exact extractRecords_last cs.flatten.length _ r (le_refl _) hm

theorem batch_demux_chunking_witness :
    (['a', '\n'] : List Char).getLast? = some '\n' :=
  (batch_demux_chunking (fun r => ([r.length], (none : Option Unit))) false
      [['a'], ['\n'], ['b', '\n']]).2.2.2 ['a', '\n'] (by
    have e0 : ([['a'], ['\n'], ['b', '\n']] : List (List Char)).flatten
        = ['a', '\n', 'b', '\n'] := rfl
    have e1 : splitFirstNL ['a', '\n', 'b', '\n'] = some (['a', '\n'], ['b', '\n']) := by
      decide
    have e2 : splitFirstNL ['b', '\n'] = some (['b', '\n'], []) := by decide
    rw [e0, extractRecords_some e1, extractRecords_some e2,
      extractRecords_none splitFirstNL_nil]
    simp)

/-- Claim C2: the streaming demultiplexer ends without reporting any
error when the decoder returns the end-of-stream sentinel, reports a
typed recoverable parse error to the sink and continues, and on any
other error reports exactly one error to the sink and stops, emitting
no further metrics from that stream. -/
theorem stream_demux_error_paths {M PE FE : Type} (rest : List (StreamRes M PE FE))
    (e : PE) (f : FE) (m : M) :
    cmdReadOutStream (StreamRes.eofRes :: rest) = [] ∧
    streamErrCount (cmdReadOutStream (StreamRes.eofRes :: rest)) = 0 ∧
    cmdReadOutStream (StreamRes.perr e :: rest) =
      StreamEv.parseErrEv e :: cmdReadOutStream rest ∧
    cmdReadOutStream (StreamRes.ferr f :: rest) = [StreamEv.fatalErrEv f] ∧
    streamErrCount (cmdReadOutStream (StreamRes.ferr f :: rest)) = 1 ∧
    streamMetricsOf (cmdReadOutStream (StreamRes.ferr f :: rest)) = [] ∧
    cmdReadOutStream (StreamRes.next m :: rest) =
      StreamEv.metricEv m :: cmdReadOutStream rest := by
  refine ⟨rfl, rfl, rfl, rfl, ?_, ?_, rfl⟩ <;>
    simp [cmdReadOutStream, streamErrCount, streamMetricsOf, sevErrB, sevMetric?]

/-- Claim C3: across all instances of the adapter in one hosting
process and any interleaving of batch iteration bodies sharing the
process-wide once flag, the zero-metrics debug notice is emitted at
most once for the lifetime of the process, and a set flag is never
reset: from a set flag no further notice fires and the flag stays
set. -/
theorem zero_metrics_notice_once {M PE : Type}
    (steps : List ((List Char → List M × Option PE) × List Char)) :
    noticeCount (runShared steps false).2 ≤ 1 ∧
    (runShared steps true).1 = true ∧
    noticeCount (runShared steps true).2 = 0 :=
  ⟨runShared_false_le_one steps, (runShared_true steps).1, (runShared_true steps).2⟩

/-- Claim C4: the streaming demultiplexer is selected by SetParser
exactly when the parser is a models.RunningParser wrapping the influx
streaming parser; every other parser value selects the batch loop;
Start wires the selected handler without changing the selection and
Stop changes nothing, so the selection is fixed before Start for the
lifetime of the instance. -/
theorem set_parser_selection (e : ExecdState) (p : ParserVal) :
    ((SetParser e p).outputReader = OutputReaderSel.stream ↔
      p = ParserVal.wrapped ParserKind.influxParser) ∧
    ((SetParser e p).outputReader = OutputReaderSel.batch ↔
      ¬ p = ParserVal.wrapped ParserKind.influxParser) ∧
    (∀ b1 b2 e2, Start (SetParser e p) b1 b2 = Except.ok e2 →
      e2.outputReader = (SetParser e p).outputReader ∧
      e2.wiredStdout = some (SetParser e p).outputReader) ∧
    Stop (SetParser e p) = SetParser e p := by
  refine ⟨?_, ?_, ?_, rfl⟩
  · cases p with
    | wrapped inner => cases inner <;> simp [SetParser]
    | unwrapped inner => cases inner <;> simp [SetParser]
  · cases p with
    | wrapped inner => cases inner <;> simp [SetParser]
    | unwrapped inner => cases inner <;> simp [SetParser]
  · intro b1 b2 e2 h
    cases b1 <;> cases b2 <;> simp [Start] at h
    rw [← h]
    simp

theorem set_parser_selection_witness :
    (SetParser defaultExecd (ParserVal.wrapped ParserKind.influxParser)).outputReader =
      OutputReaderSel.stream :=
  (set_parser_selection defaultExecd (ParserVal.wrapped ParserKind.influxParser)).1.mpr rfl

/-- Claim C5: a stderr line beginning with one of the five
three-character severity tokens is routed to the matching level with
the token stripped, and any other line is routed to Error as the word
stderr, a colon and the original line under the Go %q quoting; in
particular the two examples of the spec. -/
theorem stderr_routing_table (msg : List Char) :
    (prefE.isPrefixOf msg = true → routeLine msg = LogEv.logError (msg.drop 3)) ∧
    (prefW.isPrefixOf msg = true → routeLine msg = LogEv.logWarn (msg.drop 3)) ∧
    (prefI.isPrefixOf msg = true → routeLine msg = LogEv.logInfo (msg.drop 3)) ∧
    (prefD.isPrefixOf msg = true → routeLine msg = LogEv.logDebug (msg.drop 3)) ∧
    (prefT.isPrefixOf msg = true → routeLine msg = LogEv.logTrace (msg.drop 3)) ∧
    (prefE.isPrefixOf msg = false → prefW.isPrefixOf msg = false →
      prefI.isPrefixOf msg = false → prefD.isPrefixOf msg = false →
      prefT.isPrefixOf msg = false →
      routeLine msg = LogEv.logError ( "stderr: ".toList ++ goQuote msg)) ∧
    routeLine ( "W! disk full".toList) = LogEv.logWarn ( "disk full".toList) ∧
    routeLine ( "custom text".toList) = LogEv.logError ( "stderr: \"custom text\"".toList) := by
  refine ⟨?_, ?_, ?_, ?_, ?_, ?_, by decide, by decide⟩
  · intro h
    simp [routeLine, h]
  · intro h
    obtain ⟨t, ht⟩ := isPrefixOf_exists _ _ h
    subst ht
    have hE : prefE.isPrefixOf (prefW ++ t) = false := by
      simp [prefE, prefW, List.isPrefixOf]
    simp [routeLine, hE, isPrefixOf_append_self]
  · intro h
    obtain ⟨t, ht⟩ := isPrefixOf_exists _ _ h
    subst ht
    have hE : prefE.isPrefixOf (prefI ++ t) = false := by
      simp [prefE, prefI, List.isPrefixOf]
    have hW : prefW.isPrefixOf (prefI ++ t) = false := by
      simp [prefW, prefI, List.isPrefixOf]
    simp [routeLine, hE, hW, isPrefixOf_append_self]
  · intro h
    obtain ⟨t, ht⟩ := isPrefixOf_exists _ _ h
    subst ht
    have hE : prefE.isPrefixOf (prefD ++ t) = false := by
      simp [prefE, prefD, List.isPrefixOf]
    have hW : prefW.isPrefixOf (prefD ++ t) = false := by
      simp [prefW, prefD, List.isPrefixOf]
    have hI : prefI.isPrefixOf (prefD ++ t) = false := by
      simp [prefI, prefD, List.isPrefixOf]
    simp [routeLine, hE, hW, hI, isPrefixOf_append_self]
  · intro h
    obtain ⟨t, ht⟩ := isPrefixOf_exists _ _ h
    subst ht
    have hE : prefE.isPrefixOf (prefT ++ t) = false := by
      simp [prefE, prefT, List.isPrefixOf]
    have hW : prefW.isPrefixOf (prefT ++ t) = false := by
      simp [prefW, prefT, List.isPrefixOf]
    have hI : prefI.isPrefixOf (prefT ++ t) = false := by
      simp [prefI, prefT, List.isPrefixOf]
    have hD : prefD.isPrefixOf (prefT ++ t) = false := by
      simp [prefD, prefT, List.isPrefixOf]
    simp [routeLine, hE, hW, hI, hD, isPrefixOf_append_self]
  · intro h1 h2 h3 h4 h5
    simp [routeLine, h1, h2, h3, h4, h5]

theorem stderr_routing_table_witness :
    routeLine ( "W! disk full".toList) = LogEv.logWarn ( "disk full".toList) := by
  have key := (stderr_routing_table ( "W! disk full".toList)).2.1 (by decide)
  rw [key]
  decide

/-- Claim C6: a read error in the batch loop that is io.EOF or
os.ErrClosed ends the loop cleanly with nothing reported, and any
other read error is reported to the sink and the loop continues with
the rest of the stream. -/
theorem batch_read_error_paths {M PE : Type} (parse : List Char → List M × Option PE)
    (st : Bool) (rest : List Chunk) (n : Nat) :
    cmdReadOut parse st (Chunk.rerr RErr.eof :: rest) = [] ∧
    cmdReadOut parse st (Chunk.rerr RErr.closed :: rest) = [] ∧
    cmdReadOut parse st (Chunk.rerr (RErr.other n) :: rest) =
      BatchEv.readErrEv (RErr.other n) :: cmdReadOut parse st rest := by
  have h1 : readRecordE [] (Chunk.rerr RErr.eof :: rest) = ReadRes.fail RErr.eof rest := rfl
  have h2 : readRecordE [] (Chunk.rerr RErr.closed :: rest) =
    ReadRes.fail RErr.closed rest := rfl
  have h3 : readRecordE [] (Chunk.rerr (RErr.other n) :: rest) =
    ReadRes.fail (RErr.other n) rest := rfl
  refine ⟨?_, ?_, ?_⟩
  · rw [cmdReadOut_fail parse st h1]
    simp
  · rw [cmdReadOut_fail parse st h2]
    simp
  · rw [cmdReadOut_fail parse st h3]
    simp

/-- Claim C7: a parse error on a record in batch mode is reported to
the sink and the loop proceeds to the rest of the input, so the
metrics of all following well-formed records are still forwarded. -/
theorem batch_parse_error_continues {M PE : Type} (parse : List Char → List M × Option PE)
    (st : Bool) (rec0 l : List Char) (ms : List M) (err : PE)
    (hnl : ('\n' : Char) ∉ rec0) (hp : parse (rec0 ++ ['\n']) = (ms, some err)) :
    cmdReadOutFlat parse st (rec0 ++ '\n' :: l) =
      (processRecord parse st (rec0 ++ ['\n'])).2 ++
        cmdReadOutFlat parse (processRecord parse st (rec0 ++ ['\n'])).1 l ∧
    BatchEv.parseErrEv err ∈ cmdReadOutFlat parse st (rec0 ++ '\n' :: l) ∧
    metricsOf (cmdReadOutFlat parse st (rec0 ++ '\n' :: l)) =
      ms ++ (extractRecords l).flatMap (fun r => (parse r).1) := by
  have hs : splitFirstNL (rec0 ++ '\n' :: l) = some (rec0 ++ ['\n'], l) :=
    splitFirstNL_record l hnl
  have h1 := cmdReadOutFlat_some parse st hs
  refine ⟨h1, ?_, ?_⟩
  · rw [h1]
    apply List.mem_append_left
    simp [processRecord, hp]
  · rw [h1, metricsOf_append, processRecord_metrics, hp,
      cmdReadOutFlat_metrics parse l.length l _ (le_refl _)]

theorem batch_parse_error_continues_witness :
    BatchEv.parseErrEv 7 ∈ cmdReadOutFlat
      (fun r => (([] : List Nat), if r = ['x', '\n'] then some 7 else none))
      false (['x'] ++ '\n' :: ['y', '\n']) :=
  (batch_parse_error_continues
    (fun r => (([] : List Nat), if r = ['x', '\n'] then some 7 else none))
    false ['x'] ['y', '\n'] [] 7 (by decide) (by simp)).2.1

/-- Claim C8 counterexample: the stderr router does not scan
unboundedly; a 70000-character line with no newline is never routed as
a logical line, the default scanner instead fails with its too-long
error, which is reported to the sink and ends the loop. -/
theorem stderr_unbounded_scan_cex :
    cmdReadErr (List.replicate 70000 'a') = ([], some ScanErr.tooLong) ∧
    (List.replicate 70000 'a').length = 70000 ∧ maxScanTokenSize = 65536 := by
  have hnm : ('\n' : Char) ∉ List.replicate 70000 'a' := by
    intro hm
    have key := List.eq_of_mem_replicate hm
    exact absurd key (by decide)
  have hs : splitFirstNL (List.replicate 70000 'a') = none :=
    splitFirstNL_none_of_not_mem hnm
  have hlen : (List.replicate 70000 'a').length = 70000 := List.length_replicate 70000 'a'
  have hisE : ¬ ((List.replicate 70000 'a').isEmpty = true) := by
    rw [List.isEmpty_iff]
    intro hx
    rw [hx] at hlen
    exact absurd hlen (by decide)
  have hlt : ¬ ((List.replicate 70000 'a').length < maxScanTokenSize) := by
    rw [hlen]
    decide
  have hscan : scanNext (List.replicate 70000 'a') = ScanStep.tooLong := by
    rw [scanNext_none hs, if_neg hisE, if_neg hlt]
  exact ⟨cmdReadErr_tooLong hscan, hlen, rfl⟩

/-- Claim C8 as amended: the stderr router handles one logical line
per iteration, but scanning is bounded by the default 65536-byte
maximum token size: a line below the bound is processed as a single
logical line, a longer line instead causes the terminal scanner
failure; on a terminal scan error (not EOF) the error is reported to
the sink and the loop ends. -/
theorem stderr_scan_bounded_amended (line l : List Char)
    (h1 : ('\n' : Char) ∉ line) (h2 : line.length + 1 ≤ maxScanTokenSize) :
    cmdReadErr (line ++ '\n' :: l) =
      (routeLine (dropCR line) :: (cmdReadErr l).1, (cmdReadErr l).2) ∧
    (∀ long : List Char, ('\n' : Char) ∉ long → maxScanTokenSize < long.length →
      cmdReadErr (long ++ '\n' :: l) = ([], some ScanErr.tooLong)) := by
  constructor
  · have hs := splitFirstNL_record l h1
    have htok : scanNext (line ++ '\n' :: l) = ScanStep.token (dropCR line) l := by
      simp only [scanNext, hs]
      rw [if_pos (by simp [List.length_append]; omega)]
      rw [List.dropLast_concat]
    exact cmdReadErr_token htok
  · intro long hl1 hl2
    have hs := splitFirstNL_record l hl1
    have htok : scanNext (long ++ '\n' :: l) = ScanStep.tooLong := by
      simp only [scanNext, hs]
      rw [if_neg (by simp [List.length_append]; omega)]
    exact cmdReadErr_tooLong htok

theorem stderr_scan_bounded_amended_witness :
    cmdReadErr (['o', 'k'] ++ '\n' :: []) =
      (routeLine (dropCR ['o', 'k']) :: (cmdReadErr []).1, (cmdReadErr []).2) :=
  (stderr_scan_bounded_amended ['o', 'k'] [] (by decide) (by decide)).1

/-- Claim C9: Init returns the configuration error exactly when the
configured command list is empty, and in that case the hosting agent
never reaches Start, so no process is spawned. -/
theorem init_empty_command (e : ExecdState) :
    ((Init e).isSome ↔ e.Command = []) ∧
    (e.Command = [] →
      Init e = some "no command specified" ∧
      runInitStart e = (some "no command specified", false)) := by
  constructor
  · cases hc : e.Command <;> simp [Init, hc]
  · intro hc
    constructor <;> simp [Init, runInitStart, hc]

theorem init_empty_command_witness :
    runInitStart defaultExecd = (some "no command specified", false) :=
  ((init_empty_command defaultExecd).2 rfl).2

/-- Claim C10: when the parser returns an error in batch mode the
iteration body still finishes the current record: the metrics returned
alongside the error are forwarded to the sink, and an empty metric
list accompanying the parse error counts as a zero-metrics event that
fires the once-guarded debug notice when the flag is still clear. -/
theorem batch_parse_error_forwards {M PE : Type} (parse : List Char → List M × Option PE)
    (st : Bool) (r : List Char) (ms : List M) (err : PE)
    (hp : parse r = (ms, some err)) :
    (processRecord parse st r).2 =
      BatchEv.parseCall r :: BatchEv.parseErrEv err ::
        ((if ms.isEmpty ∧ st = false then [BatchEv.zeroNotice] else []) ++
          ms.map BatchEv.metricEv) ∧
    metricsOf (processRecord parse st r).2 = ms ∧
    (ms = [] → st = false → BatchEv.zeroNotice ∈ (processRecord parse st r).2) := by
  refine ⟨?_, ?_, ?_⟩
  · cases hE : ms.isEmpty <;> cases st <;> simp [processRecord, hp, hE]
  · rw [processRecord_metrics, hp]
  · intro hms hst
    subst hms
    subst hst
    simp [processRecord, hp]

theorem batch_parse_error_forwards_witness :
    metricsOf (processRecord
      (fun r => (([] : List Nat), if r = ['x', '\n'] then some 0 else none))
      false ['x', '\n']).2 = [] :=
  (batch_parse_error_forwards
    (fun r => (([] : List Nat), if r = ['x', '\n'] then some 0 else none))
    false ['x', '\n'] [] 0 (by simp)).2.1

end Execd
